import Mathlib

/-!
Shallow embedding of src/code/elliptic_cylinder.py over the real numbers,
and theorems settling the specification claims about it.

Modelling conventions:
* numpy floating-point scalars are modelled as real numbers; length-3 arrays
  as functions `Fin 3 → ℝ`; 3×3 arrays as `Matrix (Fin 3) (Fin 3) ℝ`.
* An arithmetic step whose IEEE evaluation would produce NaN/Inf, or a
  library call that raises (scipy.linalg.inv on a singular matrix), is
  modelled as `none`: each division is guarded by a zero test of its
  denominator and each `** 0.5` by a sign test of its radicand.
* Python `a and b` on floats evaluates to `a` when `a == 0.0` (falsy) and to
  `b` otherwise; `pyAnd` below reproduces this.
* Line references are to src/code/elliptic_cylinder.py.
-/

noncomputable section

/-- np.deg2rad: degrees to radians. -/
def deg2rad (x : ℝ) : ℝ := x * Real.pi / 180

/-- Lines 94-119: rotation matrix built from the tilt angle (the code reads
angles[0] from the one-element array it receives); returns the matrix and
its transpose, exactly the entries assigned on lines 108-118. -/
def m_conv (delta : ℝ) : Matrix (Fin 3) (Fin 3) ℝ × Matrix (Fin 3) (Fin 3) ℝ :=
  let mcon : Matrix (Fin 3) (Fin 3) ℝ :=
    !![0, 1, 0;
       Real.cos delta, 0, -Real.sin delta;
       -Real.sin delta, 0, -Real.cos delta]
  (mcon, mcon.transpose)

/-- Lines 121-137: direction cosines of a declination/inclination pair. -/
def lmnn_v (dec inc : ℝ) : ℝ × ℝ × ℝ :=
  (Real.cos dec * Real.cos inc, Real.sin dec * Real.cos inc, Real.sin inc)

/-- Lines 139-152: ambient-field vector rotated into body coordinates. -/
def F_e (intT lt mt nt : ℝ) (mcon : Matrix (Fin 3) (Fin 3) ℝ) : Fin 3 → ℝ :=
  fun i => intT * (lt * mcon i 0 + mt * mcon i 1 + nt * mcon i 2)

/-- Lines 154-167: remanent-magnetization vector in body coordinates. -/
def JN_e (intensity ln mn nn : ℝ) (mcon : Matrix (Fin 3) (Fin 3) ℝ) : Fin 3 → ℝ :=
  fun i => intensity * (ln * mcon i 0 + mn * mcon i 1 + nn * mcon i 2)

/-- Lines 169-182: demagnetization factors; the division by axis0+axis1 is
guarded (a zero denominator would give IEEE Inf/NaN). -/
def N_desmag (axis0 axis1 : ℝ) : Option (ℝ × ℝ) :=
  if axis0 + axis1 = 0 then none
  else some ((4 * Real.pi * axis1) / (axis0 + axis1),
             (4 * Real.pi * axis0) / (axis0 + axis1))

/-- Lines 184-201: isotropic susceptibility tensor, the triple loop of
line 200 written as a sum over r of the two contractions. -/
def k_matrix (k_int : Fin 3 → ℝ) (mcon : Matrix (Fin 3) (Fin 3) ℝ) :
    Matrix (Fin 3) (Fin 3) ℝ :=
  Matrix.of fun i j => ∑ r : Fin 3,
    k_int r * (mcon r 0 * mcon i 0 + mcon r 1 * mcon i 1 + mcon r 2 * mcon i 2)
            * (mcon r 0 * mcon j 0 + mcon r 1 * mcon j 1 + mcon r 2 * mcon j 2)

/-- Lines 218-221 of k_matrix2 read the names k_dec and k_inc, which are not
bound in k_matrix2 (not parameters, not enclosing-scope variables): they are
locals of elliptic (lines 49-50), and the module defines no globals of these
names, so the lookup fails when the function body runs (NameError). The
failed global lookup for k_dec is the value none. -/
def globals_k_dec : Option (Fin 3 → ℝ) := none

/-- Failed module-global lookup for the name k_inc (see globals_k_dec). -/
def globals_k_inc : Option (Fin 3 → ℝ) := none

/-- Lines 203-227: anisotropic susceptibility tensor. The tensor expression
is faithful to lines 215-226, but the body reads the free names k_dec and
k_inc, whose lookup fails, so every call fails before producing a matrix. -/
def k_matrix2 (k_int : Fin 3 → ℝ) (mcon : Matrix (Fin 3) (Fin 3) ℝ) :
    Option (Matrix (Fin 3) (Fin 3) ℝ) :=
  Option.bind globals_k_dec fun k_dec =>
  Option.bind globals_k_inc fun k_inc =>
  let Lr : Fin 3 → ℝ := fun i => Real.cos (k_dec i) * Real.cos (k_inc i)
  let Mr : Fin 3 → ℝ := fun i => Real.sin (k_dec i) * Real.cos (k_inc i)
  let Nr : Fin 3 → ℝ := fun i => Real.sin (k_inc i)
  some (Matrix.of fun i j => ∑ r : Fin 3,
    k_int r * (Lr r * mcon i 0 + Mr r * mcon i 1 + Nr r * mcon i 2)
            * (Lr r * mcon j 0 + Mr r * mcon j 1 + Nr r * mcon j 2))

/-- Lines 229-243: uncorrected resultant magnetization km·F + JN. -/
def JR_e (km : Matrix (Fin 3) (Fin 3) ℝ) (JN F : Fin 3 → ℝ) : Fin 3 → ℝ :=
  km.mulVec F + JN

/-- Lines 245-265: self-demagnetization correction. kn has column 0 of km
scaled by 0 and columns 1 and 2 of km scaled by N2 (N3 is received and never
used, as on lines 259-261); A = I + kn; scipy.linalg.inv raises on a
singular matrix, modelled by the determinant guard. -/
def JRD_e (km : Matrix (Fin 3) (Fin 3) ℝ) (N2 N3 : ℝ) (JR : Fin 3 → ℝ) :
    Option (Fin 3 → ℝ) :=
  let kn : Matrix (Fin 3) (Fin 3) ℝ :=
    Matrix.of fun i j => if j = 0 then km i j * 0 else km i j * N2
  let A := (1 : Matrix (Fin 3) (Fin 3) ℝ) + kn
  if A.det = 0 then none else some (A⁻¹.mulVec JR)

/-- Lines 267-283: body coordinates of the observation point. -/
def x_e (xp yp zp xc yc zc : ℝ) (mcon : Matrix (Fin 3) (Fin 3) ℝ) : ℝ × ℝ :=
  ((xp - xc) * mcon 1 0 + (yp - yc) * mcon 1 1 - (zp + zc) * mcon 1 2,
   (xp - xc) * mcon 2 0 + (yp - yc) * mcon 2 1 - (zp + zc) * mcon 2 2)

/-- Lines 285-298: distance from the cylinder axis (the radicand is a sum of
squares, so the square root is total here). -/
def r_e (x2 x3 : ℝ) : ℝ := Real.sqrt (x2 ^ 2 + x3 ^ 2)

/-- Lines 300-314: auxiliary discriminant; a negative radicand would give
IEEE NaN, hence the guard. -/
def delta_e (a b r x2 x3 : ℝ) : Option ℝ :=
  if r ^ 4 + (a ^ 2 - b ^ 2) ^ 2 - 2 * (a ^ 2 - b ^ 2) * (x2 ^ 2 - x3 ^ 2) < 0
  then none
  else some (Real.sqrt
    (r ^ 4 + (a ^ 2 - b ^ 2) ^ 2 - 2 * (a ^ 2 - b ^ 2) * (x2 ^ 2 - x3 ^ 2)))

/-- Lines 316-331: larger root of the characteristic equation. -/
def lamb_e (a b r delta : ℝ) : ℝ :=
  (r ^ 2 - a ^ 2 - b ^ 2 + delta) / 2

/-- Lines 333-351: derivatives of lambda (lamb is received and unused, as in
the source); both components divide by delta, hence the guard. -/
def dlambx_e (a b r x2 x3 lamb delta : ℝ) : Option (ℝ × ℝ) :=
  if delta = 0 then none
  else some (x2 * (1 + (r ^ 2 - a ^ 2 + b ^ 2) / delta),
             x3 * (1 + (r ^ 2 + a ^ 2 - b ^ 2) / delta))

/-- Lines 353-368: auxiliary field scalar. Its divisors are
sqrt((a²+λ)(b²+λ)), a²+λ and b²+λ; the single guard (a²+λ)(b²+λ) > 0 is
exactly the condition under which all three are nonzero and the radicand of
the square root is nonnegative. -/
def f1_e (a b x2 x3 lamb : ℝ) (JRD : Fin 3 → ℝ) : Option ℝ :=
  if (a ^ 2 + lamb) * (b ^ 2 + lamb) ≤ 0 then none
  else some ((2 * Real.pi * a * b / Real.sqrt ((a ^ 2 + lamb) * (b ^ 2 + lamb)))
    * (JRD 1 * x2 / (a ^ 2 + lamb) + JRD 2 * x3 / (b ^ 2 + lamb)))

/-- Lines 370-386: B2 field component in body coordinates; guards for the
division by a²−b², the division by a²+λ inside the radical and the sign of
that radical. -/
def B2_e (dlambx2 lamb : ℝ) (JRD : Fin 3 → ℝ) (f1 a b : ℝ) : Option ℝ :=
  if a ^ 2 - b ^ 2 = 0 then none
  else if a ^ 2 + lamb = 0 then none
  else if (b ^ 2 + lamb) / (a ^ 2 + lamb) < 0 then none
  else some (dlambx2 * f1 - 4 * Real.pi * a * b / (a ^ 2 - b ^ 2) * JRD 1
    * (1 - Real.sqrt ((b ^ 2 + lamb) / (a ^ 2 + lamb))))

/-- Lines 388-404: B3 field component in body coordinates. -/
def B3_e (dlambx3 lamb : ℝ) (JRD : Fin 3 → ℝ) (f1 a b : ℝ) : Option ℝ :=
  if a ^ 2 - b ^ 2 = 0 then none
  else if b ^ 2 + lamb = 0 then none
  else if (a ^ 2 + lamb) / (b ^ 2 + lamb) < 0 then none
  else some (dlambx3 * f1 - 4 * Real.pi * a * b / (a ^ 2 - b ^ 2) * JRD 2
    * (Real.sqrt ((a ^ 2 + lamb) / (b ^ 2 + lamb)) - 1))

/-- Lines 406-419: geographic X component. -/
def Bx_c (B2 B3 l2 l3 : ℝ) : ℝ := B2 * l2 + B3 * l3

/-- Lines 421-434: geographic Z component. -/
def Bz_c (B2 B3 n2 n3 : ℝ) : ℝ := B2 * n2 + B3 * n3

/-- Python float truthiness for the expression a and b on line 52: a when
a == 0.0, b otherwise. -/
def pyAnd (a b : ℝ) : ℝ := if a = 0 then a else b

/-- Lines 8-92: the entry point. The parameter k carries one susceptibility
triple per row (intensity in column 0, as read on line 48). JRD_carte and
JRD_ang (lines 63-64) do not feed the returned triple and are omitted. A
step whose IEEE evaluation is undefined (or whose library call raises)
makes the whole result none. -/
def elliptic (xp yp zp xc yc zc b c delta declirem inclirem intensity
    decT incT intT : ℝ) (k : Matrix (Fin 3) (Fin 3) ℝ) : Option (ℝ × ℝ × ℝ) :=
  let deltaRad := deg2rad delta
  let mcon := (m_conv deltaRad).1
  let lmn := lmnn_v (deg2rad declirem) (deg2rad inclirem)
  let dT := deg2rad decT
  let iT := deg2rad incT
  let lmnT := lmnn_v dT iT
  let k_int : Fin 3 → ℝ := fun i => k i 0
  let F := F_e intT lmnT.1 lmnT.2.1 lmnT.2.2 mcon
  let JN := JN_e intensity lmn.1 lmn.2.1 lmn.2.2 mcon
  Option.bind
    (if k_int 0 = pyAnd (k_int 1) (k_int 2)
     then some (k_matrix k_int mcon) else k_matrix2 k_int mcon) fun km =>
  Option.bind (N_desmag b c) fun N =>
  Option.bind (JRD_e km N.1 N.2 (JR_e km JN F)) fun JRD =>
  let x := x_e xp yp zp xc yc zc mcon
  let r := r_e x.1 x.2
  Option.bind (delta_e b c r x.1 x.2) fun de =>
  let lamb := lamb_e b c r de
  Option.bind (dlambx_e b c r x.1 x.2 lamb de) fun dl =>
  Option.bind (f1_e b c x.1 x.2 lamb JRD) fun f1 =>
  Option.bind (B2_e dl.1 lamb JRD f1 b c) fun B2 =>
  Option.bind (B3_e dl.2 lamb JRD f1 b c) fun B3 =>
  let Bx := Bx_c B2 B3 (mcon 1 0) (mcon 2 0)
  let Bz := Bz_c B2 B3 (mcon 1 2) (mcon 2 2)
  some (Bx, Bz, Bx * Real.cos iT * Real.cos dT + Bz * Real.sin iT)

/-! Helper lemmas shared by the claim theorems. -/

theorem pyAnd_self (a : ℝ) : pyAnd a a = a := by
  unfold pyAnd
  exact ite_self a

theorem optBind_none {α β : Type} (o : Option α) (f : α → Option β)
    (h : ∀ a, f a = none) : Option.bind o f = none := by
  cases o <;> simp [h]

theorem m_conv_mul_transpose (delta : ℝ) :
    (m_conv delta).1 * ((m_conv delta).1).transpose = 1 := by
  have h : Real.sin delta ^ 2 + Real.cos delta ^ 2 = 1 :=
    Real.sin_sq_add_cos_sq delta
  ext i j
  fin_cases i <;> fin_cases j <;>
    simp only [m_conv, Matrix.mul_apply, Fin.sum_univ_three,
      Matrix.transpose_apply, Matrix.cons_val', Matrix.cons_val_zero,
      Matrix.cons_val_one, Matrix.head_cons, Matrix.empty_val',
      Matrix.cons_val_fin_one, Matrix.head_fin_const, Matrix.one_apply,
      Matrix.of_apply] <;>
    norm_num [Fin.ext_iff] <;> (first | ring1 | linarith [h])

theorem k_matrix_m_conv_diagonal (delta : ℝ) (k_int : Fin 3 → ℝ) :
    k_matrix k_int (m_conv delta).1 = Matrix.diagonal k_int := by
  have horth := m_conv_mul_transpose delta
  have hdot : ∀ r s : Fin 3,
      (m_conv delta).1 r 0 * (m_conv delta).1 s 0
        + (m_conv delta).1 r 1 * (m_conv delta).1 s 1
        + (m_conv delta).1 r 2 * (m_conv delta).1 s 2
      = (1 : Matrix (Fin 3) (Fin 3) ℝ) r s := by
    intro r s
    rw [← horth]
    simp [Matrix.mul_apply, Fin.sum_univ_three, Matrix.transpose_apply]
  ext i j
  simp only [k_matrix, Matrix.of_apply, hdot]
  fin_cases i <;> fin_cases j <;>
    simp [Fin.sum_univ_three, Matrix.one_apply, Matrix.diagonal, Fin.ext_iff]

/-! Claim theorems. -/

/-- C2: k_matrix2 never returns a tensor: its body reads the names k_dec and
k_inc, which are unbound in its scope, so every call fails with NameError
before any arithmetic happens; in particular it does not reproduce the
isotropic tensor of k_matrix. -/
theorem C2_k_matrix2_fails (k_int : Fin 3 → ℝ)
    (mcon : Matrix (Fin 3) (Fin 3) ℝ) :
    k_matrix2 k_int mcon = none := rfl

/-- C1: at the susceptibility intensities (5, 3, 5) the line-52 selection
test k_int[0] == (k_int[1] and k_int[2]) evaluates to 5 == 5 and chooses the
isotropic builder, although the three intensities are not pairwise equal;
this refutes the claimed selection condition. -/
theorem C1_selection_bug :
    (5 : ℝ) = pyAnd 3 5 ∧ ¬(((5 : ℝ) = 3) ∧ ((3 : ℝ) = 5)) := by
  constructor
  · unfold pyAnd
    rw [if_neg (by norm_num : (3 : ℝ) ≠ 0)]
  · rintro ⟨h3, h5⟩
    norm_num at h3

/-- C5: for positive axes a, b, N_desmag returns
(4π·b/(a+b), 4π·a/(a+b)) and the products with (a+b) recover 4πb and 4πa
exactly. -/
theorem C5_N_desmag (a b : ℝ) (ha : 0 < a) (hb : 0 < b) :
    N_desmag a b
      = some (4 * Real.pi * b / (a + b), 4 * Real.pi * a / (a + b)) ∧
    4 * Real.pi * b / (a + b) * (a + b) = 4 * Real.pi * b ∧
    4 * Real.pi * a / (a + b) * (a + b) = 4 * Real.pi * a := by
  have hab : a + b ≠ 0 := by positivity
  refine ⟨by simp [N_desmag, hab], by field_simp, by field_simp⟩

theorem C5_N_desmag_witness :
    (0 : ℝ) < 2 ∧ (0 : ℝ) < 1 ∧
    (N_desmag 2 1
       = some (4 * Real.pi * 1 / (2 + 1), 4 * Real.pi * 2 / (2 + 1)) ∧
     4 * Real.pi * 1 / (2 + 1) * (2 + 1) = 4 * Real.pi * 1 ∧
     4 * Real.pi * 2 / (2 + 1) * (2 + 1) = 4 * Real.pi * 2) :=
  ⟨by norm_num, by norm_num, C5_N_desmag 2 1 (by norm_num) (by norm_num)⟩

/-- C7: whenever r is the distance sqrt(x2²+x3²) computed by r_e, the
radicand of delta_e is a sum of squares, so delta_e returns exactly the
spec discriminant sqrt(r⁴ + (a²−b²)² − 2(a²−b²)(x2²−x3²)), and lamb_e is
exactly the outer root (r² − a² − b² + δ)/2. -/
theorem C7_delta_lamb (a b r x2 x3 d : ℝ)
    (h : r = Real.sqrt (x2 ^ 2 + x3 ^ 2)) :
    delta_e a b r x2 x3
      = some (Real.sqrt
          (r ^ 4 + (a ^ 2 - b ^ 2) ^ 2
            - 2 * (a ^ 2 - b ^ 2) * (x2 ^ 2 - x3 ^ 2))) ∧
    lamb_e a b r d = (r ^ 2 - a ^ 2 - b ^ 2 + d) / 2 := by
  have hr4 : r ^ 4 = (x2 ^ 2 + x3 ^ 2) ^ 2 := by
    rw [h, show Real.sqrt (x2 ^ 2 + x3 ^ 2) ^ 4
        = (Real.sqrt (x2 ^ 2 + x3 ^ 2) ^ 2) ^ 2 by ring,
      Real.sq_sqrt (by positivity)]
  have hnn : 0 ≤ r ^ 4 + (a ^ 2 - b ^ 2) ^ 2
      - 2 * (a ^ 2 - b ^ 2) * (x2 ^ 2 - x3 ^ 2) := by
    rw [hr4]
    nlinarith [sq_nonneg (x2 ^ 2 - x3 ^ 2 - (a ^ 2 - b ^ 2)), sq_nonneg (x2 * x3)]
  refine ⟨?_, rfl⟩
  unfold delta_e
  rw [if_neg (not_lt.mpr hnn)]

theorem C7_delta_lamb_witness :
    ((5 : ℝ) = Real.sqrt (3 ^ 2 + 4 ^ 2)) ∧
    (delta_e 2 1 5 3 4
       = some (Real.sqrt
           ((5 : ℝ) ^ 4 + (2 ^ 2 - 1 ^ 2) ^ 2
             - 2 * (2 ^ 2 - 1 ^ 2) * (3 ^ 2 - 4 ^ 2))) ∧
     lamb_e 2 1 5 7 = ((5 : ℝ) ^ 2 - 2 ^ 2 - 1 ^ 2 + 7) / 2) := by
  have h5 : (5 : ℝ) = Real.sqrt (3 ^ 2 + 4 ^ 2) := by
    rw [show (3 : ℝ) ^ 2 + 4 ^ 2 = 5 ^ 2 by norm_num,
      Real.sqrt_sq (by norm_num : (0 : ℝ) ≤ 5)]
  exact ⟨h5, C7_delta_lamb 2 1 5 3 4 7 h5⟩

/-- C4: JRD_e forms A = I + kn with kn column 0 zero and columns 1, 2 the
corresponding columns of km scaled by N2, and returns A⁻¹·JR whenever A is
invertible; the returned value does not depend on N3. -/
theorem C4_JRD_e (km : Matrix (Fin 3) (Fin 3) ℝ) (N2 N3 M3 : ℝ)
    (JR : Fin 3 → ℝ)
    (hA : ((1 : Matrix (Fin 3) (Fin 3) ℝ)
        + Matrix.of fun i j => if j = 0 then 0 else km i j * N2).det ≠ 0) :
    JRD_e km N2 N3 JR
      = some (((1 : Matrix (Fin 3) (Fin 3) ℝ)
          + Matrix.of fun i j => if j = 0 then 0 else km i j * N2)⁻¹.mulVec JR) ∧
    JRD_e km N2 N3 JR = JRD_e km N2 M3 JR := by
  have hk : (Matrix.of fun i j =>
        if j = 0 then km i j * 0 else km i j * N2)
      = (Matrix.of fun i j => if j = 0 then (0 : ℝ) else km i j * N2) := by
    ext i j
    by_cases hj : j = 0 <;> simp [hj]
  constructor
  · simp only [JRD_e, hk]
    rw [if_neg hA]
  · rfl

theorem C4_JRD_e_witness :
    (((1 : Matrix (Fin 3) (Fin 3) ℝ)
        + Matrix.of fun i j =>
            if j = 0 then 0 else (0 : Matrix (Fin 3) (Fin 3) ℝ) i j * 0).det ≠ 0) ∧
    (JRD_e 0 0 0 (fun _ => 1)
       = some (((1 : Matrix (Fin 3) (Fin 3) ℝ)
           + Matrix.of fun i j =>
               if j = 0 then 0
               else (0 : Matrix (Fin 3) (Fin 3) ℝ) i j * 0)⁻¹.mulVec (fun _ => 1)) ∧
     JRD_e 0 0 0 (fun _ => 1) = JRD_e 0 0 1 (fun _ => 1)) := by
  have h0 : (Matrix.of fun i j =>
        if j = 0 then (0 : ℝ) else (0 : Matrix (Fin 3) (Fin 3) ℝ) i j * 0)
      = 0 := by
    ext i j
    by_cases hj : j = 0 <;> simp [hj]
  have hA : ((1 : Matrix (Fin 3) (Fin 3) ℝ)
      + Matrix.of fun i j =>
          if j = 0 then 0 else (0 : Matrix (Fin 3) (Fin 3) ℝ) i j * 0).det ≠ 0 := by
    rw [h0, add_zero]
    simp
  exact ⟨hA, C4_JRD_e 0 0 0 1 (fun _ => 1) hA⟩

/-- C6: for every tilt angle, the matrix built by m_conv satisfies
mcon · mconᵗ = I, and the second returned value is the transpose of the
first. -/
theorem C6_m_conv_orthogonal (delta : ℝ) :
    (m_conv delta).1 * ((m_conv delta).1).transpose = 1 ∧
    (m_conv delta).2 = ((m_conv delta).1).transpose :=
  ⟨m_conv_mul_transpose delta, rfl⟩

/-- C10: for every tilt angle and intensity triple, the isotropic builder
k_matrix applied to the rotation matrix of m_conv yields, in exact
arithmetic, the diagonal matrix of the intensities, independently of the
tilt angle. -/
theorem C10_k_matrix_diagonal (delta : ℝ) (k_int : Fin 3 → ℝ) :
    k_matrix k_int (m_conv delta).1 = Matrix.diagonal k_int :=
  k_matrix_m_conv_diagonal delta k_int

/-- C3: for equal axis lengths the pipeline reaches the B2 field formula,
which divides by axis0² − axis1² = 0; no branch of elliptic raises a domain
error, and the exact-real value of the returned components is undefined
(IEEE NaN/Inf, modelled none). -/
theorem C3_equal_axes (xp yp zp xc yc zc b c delta declirem inclirem intensity
    decT incT intT : ℝ) (k : Matrix (Fin 3) (Fin 3) ℝ) (h : b = c) :
    elliptic xp yp zp xc yc zc b c delta declirem inclirem intensity
      decT incT intT k = none := by
  subst h
  simp only [elliptic]
  refine optBind_none _ _ fun km => ?_
  refine optBind_none _ _ fun N => ?_
  refine optBind_none _ _ fun JRD => ?_
  refine optBind_none _ _ fun de => ?_
  refine optBind_none _ _ fun dl => ?_
  refine optBind_none _ _ fun f1 => ?_
  have hB2 : ∀ d1 lam (J : Fin 3 → ℝ) f, B2_e d1 lam J f b b = none := by
    intro d1 lam J f
    simp [B2_e]
  rw [hB2]
  rfl

theorem C3_equal_axes_witness :
    ((1 : ℝ) = 1) ∧
    elliptic 0 0 0 0 0 5 1 1 0 0 0 0 0 90 50000 0 = none :=
  ⟨rfl, C3_equal_axes 0 0 0 0 0 5 1 1 0 0 0 0 0 90 50000 0 rfl⟩

/-- C9: whenever elliptic returns, the third component of its triple is
Bx·cos(incT_rad)·cos(decT_rad) + Bz·sin(incT_rad), where Bx and Bz are the
first two components and the ambient angles are the radian conversions of
the incT and decT inputs; no Y term contributes. -/
theorem C9_total_field_projection (xp yp zp xc yc zc b c delta declirem
    inclirem intensity decT incT intT : ℝ) (k : Matrix (Fin 3) (Fin 3) ℝ) :
    (elliptic xp yp zp xc yc zc b c delta declirem inclirem intensity
        decT incT intT k).map (fun p => p.2.2)
      = (elliptic xp yp zp xc yc zc b c delta declirem inclirem intensity
        decT incT intT k).map (fun p =>
          p.1 * Real.cos (deg2rad incT) * Real.cos (deg2rad decT)
            + p.2.1 * Real.sin (deg2rad incT)) := by
  cases helli : elliptic xp yp zp xc yc zc b c delta declirem inclirem
      intensity decT incT intT k with
  | none => rfl
  | some p =>
    simp only [Option.map_some']
    congr 1
    simp only [elliptic] at helli
    rw [Option.bind_eq_some] at helli
    obtain ⟨km, hkm, helli⟩ := helli
    rw [Option.bind_eq_some] at helli
    obtain ⟨N, hN, helli⟩ := helli
    rw [Option.bind_eq_some] at helli
    obtain ⟨JRD, hJRD, helli⟩ := helli
    rw [Option.bind_eq_some] at helli
    obtain ⟨de, hde, helli⟩ := helli
    rw [Option.bind_eq_some] at helli
    obtain ⟨dl, hdl, helli⟩ := helli
    rw [Option.bind_eq_some] at helli
    obtain ⟨f1, hf1, helli⟩ := helli
    rw [Option.bind_eq_some] at helli
    obtain ⟨B2, hB2, helli⟩ := helli
    rw [Option.bind_eq_some] at helli
    obtain ⟨B3, hB3, helli⟩ := helli
    injection helli with helli
    subst helli
    rfl

set_option maxHeartbeats 1000000 in
/-- C8: zero tilt, zero remanent intensity, equal susceptibility
intensities, ambient inclination 90 degrees, observation point with
xp = xc and yp = yc at any depth: whenever elliptic returns, its Bx
component is exactly zero. -/
theorem C8_Bx_zero_above_center (xc yc zc zp b c declirem inclirem decT
    intT : ℝ) (k : Matrix (Fin 3) (Fin 3) ℝ)
    (h1 : k 1 0 = k 0 0) (h2 : k 2 0 = k 0 0) :
    (elliptic xc yc zp xc yc zc b c 0 declirem inclirem 0 decT 90 intT k).map
        Prod.fst
      = (elliptic xc yc zp xc yc zc b c 0 declirem inclirem 0 decT 90 intT
        k).map (fun _ => 0) := by
  have h0 : deg2rad 0 = 0 := by unfold deg2rad; ring
  have hpi2 : deg2rad 90 = Real.pi / 2 := by unfold deg2rad; ring
  have hM10 : (m_conv (deg2rad 0)).1 1 0 = 1 := by rw [h0]; simp [m_conv]
  have hM11 : (m_conv (deg2rad 0)).1 1 1 = 0 := by rw [h0]; simp [m_conv]
  have hM12 : (m_conv (deg2rad 0)).1 1 2 = 0 := by rw [h0]; simp [m_conv]
  have hM20 : (m_conv (deg2rad 0)).1 2 0 = 0 := by rw [h0]; simp [m_conv]
  have hx2 : (x_e xc yc zp xc yc zc ((m_conv (deg2rad 0)).1)).1 = 0 := by
    simp [x_e, hM10, hM11, hM12]
  have hJN1 : ∀ (a1 a2 a3 : ℝ) (M : Matrix (Fin 3) (Fin 3) ℝ),
      JN_e 0 a1 a2 a3 M 1 = 0 := by
    intro a1 a2 a3 M
    simp [JN_e]
  have hF1 : F_e intT (lmnn_v (deg2rad decT) (deg2rad 90)).1
      (lmnn_v (deg2rad decT) (deg2rad 90)).2.1
      (lmnn_v (deg2rad decT) (deg2rad 90)).2.2
      ((m_conv (deg2rad 0)).1) 1 = 0 := by
    simp [F_e, lmnn_v, hpi2, hM10, hM11, hM12]
  have hJR1 : ∀ (JN F : Fin 3 → ℝ), F 1 = 0 → JN 1 = 0 →
      JR_e (Matrix.diagonal fun r => k r 0) JN F 1 = 0 := by
    intro JN F hF hJN
    simp [JR_e, Matrix.mulVec_diagonal, hF, hJN]
  cases helli : elliptic xc yc zp xc yc zc b c 0 declirem inclirem 0 decT 90
      intT k with
  | none => rfl
  | some p =>
    simp only [Option.map_some']
    congr 1
    simp only [elliptic] at helli
    rw [Option.bind_eq_some] at helli
    obtain ⟨km, hkm, helli⟩ := helli
    rw [Option.bind_eq_some] at helli
    obtain ⟨N, hN, helli⟩ := helli
    rw [Option.bind_eq_some] at helli
    obtain ⟨JRD, hJRD, helli⟩ := helli
    rw [Option.bind_eq_some] at helli
    obtain ⟨de, hde, helli⟩ := helli
    rw [Option.bind_eq_some] at helli
    obtain ⟨dl, hdl, helli⟩ := helli
    rw [Option.bind_eq_some] at helli
    obtain ⟨f1, hf1, helli⟩ := helli
    rw [Option.bind_eq_some] at helli
    obtain ⟨B2, hB2, helli⟩ := helli
    rw [Option.bind_eq_some] at helli
    obtain ⟨B3, hB3, helli⟩ := helli
    -- equal intensities: the line-52 test holds and k_matrix is selected
    simp only [h1, h2, pyAnd_self, eq_self_iff_true, if_true] at hkm
    injection hkm with hkm
    have hkmval : km = Matrix.diagonal fun r => k r 0 := by
      rw [← hkm]
      exact k_matrix_m_conv_diagonal _ _
    -- component 1 of the corrected magnetization vanishes
    rw [hkmval] at hJRD
    simp only [JRD_e] at hJRD
    have hA : (1 : Matrix (Fin 3) (Fin 3) ℝ)
        + (Matrix.of fun i j =>
            if j = 0 then Matrix.diagonal (fun r => k r 0) i j * 0
            else Matrix.diagonal (fun r => k r 0) i j * N.1)
        = Matrix.diagonal ![1, 1 + k 1 0 * N.1, 1 + k 2 0 * N.1] := by
      ext i j
      fin_cases i <;> fin_cases j <;>
        simp [Matrix.diagonal, Matrix.one_apply, Fin.ext_iff]
    rw [hA] at hJRD
    split at hJRD
    · exact Option.noConfusion hJRD
    injection hJRD with hJRD
    have hJRD1 : JRD 1 = 0 := by
      rw [← hJRD, Matrix.inv_diagonal, Matrix.mulVec_diagonal]
      exact mul_eq_zero_of_right _ (hJR1 _ _ hF1 (hJN1 _ _ _ _))
    -- component 1 of the lambda derivative vanishes (x2 = 0 above center)
    simp only [dlambx_e] at hdl
    split at hdl
    · exact Option.noConfusion hdl
    injection hdl with hdl
    have hdl1 : dl.1 = 0 := by
      rw [← hdl]
      dsimp only
      rw [hx2]
      ring
    -- hence B2 = 0
    simp only [B2_e] at hB2
    split at hB2
    · exact Option.noConfusion hB2
    split at hB2
    · exact Option.noConfusion hB2
    split at hB2
    · exact Option.noConfusion hB2
    injection hB2 with hB2
    have hB2val : B2 = 0 := by
      rw [← hB2, hdl1, hJRD1]
      ring
    -- and Bx = B2 * 1 + B3 * 0 = 0
    injection helli with helli
    subst helli
    dsimp only
    simp only [Bx_c]
    rw [hB2val, hM20]
    ring

theorem C8_Bx_zero_above_center_witness :
    ((0 : Matrix (Fin 3) (Fin 3) ℝ) 1 0 = (0 : Matrix (Fin 3) (Fin 3) ℝ) 0 0) ∧
    ((0 : Matrix (Fin 3) (Fin 3) ℝ) 2 0 = (0 : Matrix (Fin 3) (Fin 3) ℝ) 0 0) ∧
    (elliptic 0 0 0 0 0 5 2 1 0 0 0 0 0 90 50000 0).map Prod.fst
      = (elliptic 0 0 0 0 0 5 2 1 0 0 0 0 0 90 50000 0).map (fun _ => 0) :=
  ⟨by simp, by simp,
    C8_Bx_zero_above_center 0 0 5 0 2 1 0 0 0 50000 0 (by simp) (by simp)⟩
